import Mathlib

/-!
Verification of the core simulation layer of `the_snake.py`: grid geometry,
the segmented body (`SnakeInternal`), the consumable target (`AppleInternal`)
and the per-tick controller loop (`GameController` / `main`).

Coordinates are unbounded integers, as Python integers are.  Randomness is
modelled by an explicit stream of raw `randint` samples; the retry loops
return `none` when the stream is exhausted.
-/

namespace TheSnake

/-- Screen width in pixels (`SCREEN_WIDTH = 640`). -/
def SCREEN_WIDTH : ℤ := 640

/-- Screen height in pixels (`SCREEN_HEIGHT = 480`). -/
def SCREEN_HEIGHT : ℤ := 480

/-- Cell size in pixels (`GRID_SIZE = 20`); both the snake and the apple are
constructed with this size in `main`. -/
def GRID_SIZE : ℤ := 20

/-- Direction `UP = (0, -1)`. -/
def UP : ℤ × ℤ := (0, -1)

/-- Direction `DOWN = (0, 1)`. -/
def DOWN : ℤ × ℤ := (0, 1)

/-- Direction `LEFT = (-1, 0)`. -/
def LEFT : ℤ × ℤ := (-1, 0)

/-- Direction `RIGHT = (1, 0)`. -/
def RIGHT : ℤ × ℤ := (1, 0)

/-- `START_SNAKE_DIRECTION = RIGHT`. -/
def START_SNAKE_DIRECTION : ℤ × ℤ := RIGHT

/-- `START_SNAKE_POSITION = (SCREEN_WIDTH // 4, SCREEN_HEIGHT // 4)`. -/
def START_SNAKE_POSITION : ℤ × ℤ := (160, 120)

/-- `START_APPLE_POSITION = (SCREEN_WIDTH // 2, SCREEN_HEIGHT // 2)`. -/
def START_APPLE_POSITION : ℤ × ℤ := (320, 240)

/-- The four legal movement directions. -/
def DIRS : List (ℤ × ℤ) := [UP, DOWN, LEFT, RIGHT]

/-- Componentwise negation; `UP` and `DOWN` are opposites, as are `LEFT` and
`RIGHT`. -/
def opposite (d : ℤ × ℤ) : ℤ × ℤ := (-d.1, -d.2)

/-- State of `SnakeInternal`: `position` is `_position` (the head),
`positions` is `_positions` (trailing segments, index 0 right behind the
head), `increaseFlag` is `_increase`, `tail_cache` is `_tail_cache` and
`last` is `_last` (the cell to erase on redraw; drawing itself is external).
-/
structure Snake where
  position : ℤ × ℤ
  positions : List (ℤ × ℤ)
  direction : ℤ × ℤ
  next_direction : Option (ℤ × ℤ)
  increaseFlag : Bool
  tail_cache : Finset (ℤ × ℤ)
  last : Option (ℤ × ℤ)
deriving DecidableEq

/-- `SnakeInternal.update_direction`: record a direction intent, with no
check of its own. -/
def update_direction (s : Snake) (nd : ℤ × ℤ) : Snake :=
  { s with next_direction := some nd }

/-- `SnakeInternal.is_point_in_snake`: membership in `_tail_cache` only (the
head is not included). -/
def is_point_in_snake (s : Snake) (p : ℤ × ℤ) : Bool :=
  decide (p ∈ s.tail_cache)

/-- `SnakeInternal.increase`: mark the snake to grow by one segment at the
next `move`. -/
def increase (s : Snake) : Snake :=
  { s with increaseFlag := true }

/-- `SnakeInternal._get_next_head`, with `self.size = GRID_SIZE` as
constructed in `main`: step one cell in the current direction, then wrap
each axis with the two sequential `if`s of the source. -/
def get_next_head (pos dir : ℤ × ℤ) : ℤ × ℤ :=
  let x0 := pos.1 + dir.1 * GRID_SIZE
  let y0 := pos.2 + dir.2 * GRID_SIZE
  let x1 := if x0 < 0 then SCREEN_WIDTH - GRID_SIZE else x0
  let x2 := if x1 > SCREEN_WIDTH - GRID_SIZE then 0 else x1
  let y1 := if y0 < 0 then SCREEN_HEIGHT - GRID_SIZE else y0
  let y2 := if y1 > SCREEN_HEIGHT - GRID_SIZE then 0 else y1
  (x2, y2)

/-- Steps 1 and 2 of `SnakeInternal.move`: commit the pending direction and
clear it, then do the tail-drop/head-insert update of `_positions` and
`_tail_cache` (the head itself is not moved yet).  Python's `set.remove` is
modelled by `Finset.erase`; the two agree whenever the removed element is
present, which the cache-synchronisation invariant guarantees at every
reachable call. -/
def shift (s : Snake) : Snake :=
  let d := match s.next_direction with
    | none => s.direction
    | some nd => nd
  let s1 : Snake := { s with direction := d, next_direction := none }
  if s1.increaseFlag = false then
    if 0 < s1.positions.length then
      { s1 with
        last := s1.positions.getLast?,
        positions := s1.position :: s1.positions.dropLast,
        tail_cache := insert s1.position
          (match s1.positions.getLast? with
            | some t => s1.tail_cache.erase t
            | none => s1.tail_cache) }
    else
      { s1 with last := some s1.position }
  else
    { s1 with
      positions := s1.position :: s1.positions,
      tail_cache := insert s1.position s1.tail_cache,
      increaseFlag := false }

/-- `SnakeInternal.move`: one advance.  Returns the updated snake and
whether the new head landed on a trailing segment. -/
def move (s : Snake) : Snake × Bool :=
  let s2 := shift s
  let newHead := get_next_head s2.position s2.direction
  let s3 := { s2 with position := newHead }
  (s3, is_point_in_snake s3 newHead)

/-- `SnakeInternal.reset`: clear the trailing segments and the cache,
restore the default direction, clear the pending direction and (via
`_erase_last`) the `_last` cell.  The head and the `_increase` flag are left
untouched, exactly as in the source. -/
def reset (s : Snake) : Snake :=
  { s with
    positions := [],
    direction := START_SNAKE_DIRECTION,
    next_direction := none,
    tail_cache := ∅,
    last := none }

/-- Arrow-key events consumed by `GameController.handle_keys`. -/
inductive Key where
  | up
  | down
  | left
  | right
deriving DecidableEq

/-- The direction an arrow key requests. -/
def dirOf : Key → ℤ × ℤ
  | .up => UP
  | .down => DOWN
  | .left => LEFT
  | .right => RIGHT

/-- One `KEYDOWN` branch of `GameController.handle_keys`: the reversal check
compares the request against `snake.direction` (the active direction), never
against the queued `next_direction`. -/
def handle_key (s : Snake) (k : Key) : Snake :=
  match k with
  | .up => if s.direction ≠ DOWN then update_direction s UP else s
  | .down => if s.direction ≠ UP then update_direction s DOWN else s
  | .left => if s.direction ≠ RIGHT then update_direction s LEFT else s
  | .right => if s.direction ≠ LEFT then update_direction s RIGHT else s

/-- All `KEYDOWN` events of one tick, processed in order. -/
def handle_keys (s : Snake) (ks : List Key) : Snake :=
  ks.foldl handle_key s

/-- State of `AppleInternal`: its position. -/
structure Apple where
  position : ℤ × ℤ
deriving DecidableEq

/-- Snap a raw `randint` sample to the grid, as `randomize_position` does
with `x - x % self._size` (the apple is constructed with size `GRID_SIZE`).
-/
def align (sm : ℤ × ℤ) : ℤ × ℤ :=
  (sm.1 - sm.1 % GRID_SIZE, sm.2 - sm.2 % GRID_SIZE)

/-- `AppleInternal.randomize_position` over an explicit stream of raw
samples: resample while the aligned candidate equals the position the apple
held on entry (`last_pos`), then return the accepted position together with
the unused samples; `none` when the stream runs out. -/
def randomize_position (pos : ℤ × ℤ) : List (ℤ × ℤ) → Option ((ℤ × ℤ) × List (ℤ × ℤ))
  | [] => none
  | sm :: rest =>
      if align sm = pos then randomize_position pos rest
      else some (align sm, rest)

/-- `GameController.randomize_apple` with `randomize_position` inlined: keep
sampling; a candidate equal to the apple's current position retries the
inner loop, a candidate inside the snake body moves the apple there and
retries the outer loop (so the next inner loop compares against the updated
position), and any other candidate is returned. -/
def randomize_apple (s : Snake) (pos : ℤ × ℤ) : List (ℤ × ℤ) → Option (ℤ × ℤ)
  | [] => none
  | sm :: rest =>
      if align sm = pos then randomize_apple s pos rest
      else if is_point_in_snake s (align sm) then randomize_apple s (align sm) rest
      else some (align sm)

/-- The inlined loop satisfies the recursion of the source's two-function
form: run `randomize_position` once, then either accept its result or loop
with the apple moved to the rejected sample. -/
theorem randomize_apple_eq (s : Snake) (pos : ℤ × ℤ) (samples : List (ℤ × ℤ)) :
    randomize_apple s pos samples =
      match randomize_position pos samples with
      | none => none
      | some (p, rest) =>
          if is_point_in_snake s p then randomize_apple s p rest else some p := by
  induction samples generalizing pos with
  | nil => rfl
  | cons sm rest ih =>
      by_cases h : align sm = pos
      · simp only [randomize_apple, randomize_position, h, if_true, if_pos]
        exact ih pos
      · simp only [randomize_apple, randomize_position, h, if_neg, if_false]

/-- The whole game state seen by the controller loop in `main`. -/
structure Game where
  snake : Snake
  apple : Apple
deriving DecidableEq

/-- One iteration of the `while` loop in `main` (the non-quit case): handle
the key events, advance the snake, then either reset and re-place the apple
(self-collision) or, when the head reached the apple, grow and re-place the
apple.  Returns `none` when the sample stream is exhausted before a
placement succeeds. -/
def tick (g : Game) (ks : List Key) (samples : List (ℤ × ℤ)) : Option Game :=
  let s := handle_keys g.snake ks
  let mr := move s
  if mr.2 then
    let s2 := reset mr.1
    match randomize_apple s2 g.apple.position samples with
    | none => none
    | some p => some ⟨s2, ⟨p⟩⟩
  else
    if mr.1.position = g.apple.position then
      let s2 := increase mr.1
      match randomize_apple s2 g.apple.position samples with
      | none => none
      | some p => some ⟨s2, ⟨p⟩⟩
    else
      some ⟨mr.1, g.apple⟩

/-- The snake as constructed in `main`. -/
def initialSnake : Snake :=
  { position := START_SNAKE_POSITION,
    positions := [],
    direction := START_SNAKE_DIRECTION,
    next_direction := none,
    increaseFlag := false,
    tail_cache := ∅,
    last := none }

/-- The game state as constructed in `main`. -/
def initialGame : Game :=
  { snake := initialSnake, apple := { position := START_APPLE_POSITION } }

/-- States reachable from the initial state by complete controller ticks. -/
inductive Reach : Game → Prop where
  | init : Reach initialGame
  | step {g g' : Game} (ks : List Key) (samples : List (ℤ × ℤ)) :
      Reach g → tick g ks samples = some g' → Reach g'

/-- The direction `move` commits in its first step: the pending one when
set, otherwise the current one. -/
def commitDir (s : Snake) : ℤ × ℤ :=
  match s.next_direction with
  | none => s.direction
  | some nd => nd

lemma shift_position (s : Snake) : (shift s).position = s.position := by
  simp only [shift]
  split_ifs <;> rfl

lemma shift_direction (s : Snake) : (shift s).direction = commitDir s := by
  simp only [shift, commitDir]
  split_ifs <;> rfl

lemma shift_next_direction (s : Snake) : (shift s).next_direction = none := by
  simp only [shift]
  split_ifs <;> rfl

lemma shift_increaseFlag (s : Snake) : (shift s).increaseFlag = false := by
  simp only [shift]
  split_ifs with h1 h2 <;> first | exact h1 | rfl

lemma move_fst_position (s : Snake) :
    (move s).1.position = get_next_head s.position (commitDir s) := by
  show get_next_head (shift s).position (shift s).direction = _
  rw [shift_position, shift_direction]

lemma move_fst_direction (s : Snake) : (move s).1.direction = commitDir s :=
  shift_direction s

lemma move_fst_next_direction (s : Snake) : (move s).1.next_direction = none :=
  shift_next_direction s

lemma move_fst_positions (s : Snake) : (move s).1.positions = (shift s).positions :=
  rfl

lemma move_fst_tail_cache (s : Snake) : (move s).1.tail_cache = (shift s).tail_cache :=
  rfl

lemma move_fst_increaseFlag (s : Snake) : (move s).1.increaseFlag = false :=
  shift_increaseFlag s

lemma move_snd (s : Snake) :
    (move s).2 = is_point_in_snake (shift s) (get_next_head s.position (commitDir s)) := by
  show is_point_in_snake _ (get_next_head (shift s).position (shift s).direction) = _
  rw [shift_position, shift_direction]
  rfl

lemma shift_positions_of_increase (s : Snake) (h : s.increaseFlag = true) :
    (shift s).positions = s.position :: s.positions := by
  simp only [shift]
  rw [if_neg]
  simp [h]

lemma shift_positions_length (s : Snake) :
    (shift s).positions.length =
      if s.increaseFlag = true then s.positions.length + 1 else s.positions.length := by
  simp only [shift]
  split_ifs with h1 h2 h3
  all_goals simp_all
  all_goals omega

lemma move_increase_positions (s : Snake) :
    (move (increase s)).1.positions = s.position :: s.positions := by
  rw [move_fst_positions, shift_positions_of_increase _ rfl]
  rfl

lemma increase_increase (s : Snake) : increase (increase s) = increase s := rfl

/-- C2 (amended): `reset` clears the trailing segments and the occupancy
index, restores the default direction, clears the pending direction and
leaves the head where it was; it leaves the pending-growth flag unchanged
(it does not clear it). -/
theorem C2_reset_effect (s : Snake) :
    (reset s).positions = [] ∧
    (reset s).tail_cache = ∅ ∧
    (reset s).direction = START_SNAKE_DIRECTION ∧
    (reset s).next_direction = none ∧
    (reset s).position = s.position ∧
    (reset s).increaseFlag = s.increaseFlag :=
  ⟨rfl, rfl, rfl, rfl, rfl, rfl⟩

/-- C2 counterexample: on a snake whose pending-growth flag is set, `reset`
does not clear the flag, contradicting the claim that it does. -/
theorem C2_reset_keeps_growth_flag :
    (reset { initialSnake with increaseFlag := true }).increaseFlag ≠ false := by
  decide

/-- C6: with no growth pending, one `move` conserves the trailing-segment
count; `increase` followed by one `move` prepends exactly the pre-advance
head as the new segment (so the count grows by one) and clears the
pending-growth flag. -/
theorem C6_length_dynamics (s : Snake) :
    (move s).1.positions.length =
      (if s.increaseFlag = true then s.positions.length + 1 else s.positions.length) ∧
    (move (increase s)).1.positions = s.position :: s.positions ∧
    (move (increase s)).1.increaseFlag = false := by
  refine ⟨?_, move_increase_positions s, move_fst_increaseFlag _⟩
  rw [move_fst_positions, shift_positions_length]

/-- C10: `increase` is idempotent between advances — any positive number of
calls equals one call, and the next `move` adds exactly one trailing
segment. -/
theorem C10_grow_idempotent (s : Snake) (n : ℕ) (h : 1 ≤ n) :
    increase^[n] s = increase s ∧
    (move (increase^[n] s)).1.positions.length = s.positions.length + 1 := by
  obtain ⟨m, rfl⟩ : ∃ m, n = m + 1 := ⟨n - 1, by omega⟩
  have hiter : increase^[m + 1] s = increase s := by
    induction m with
    | zero => rfl
    | succ k ih =>
        rw [Function.iterate_succ_apply', ih (by omega), increase_increase]
  refine ⟨hiter, ?_⟩
  rw [hiter, move_increase_positions]
  simp

/-- C10 witness at a concrete input. -/
theorem C10_grow_idempotent_witness :
    increase^[1] initialSnake = increase initialSnake ∧
    (move (increase^[1] initialSnake)).1.positions.length =
      initialSnake.positions.length + 1 :=
  C10_grow_idempotent initialSnake 1 (by decide)

/-- Pending-direction sanity: whenever a direction is queued it is not the
reverse of the active direction. -/
def dirOk (s : Snake) : Prop :=
  match s.next_direction with
  | none => True
  | some p => p ≠ opposite s.direction

lemma opposite_opposite (d : ℤ × ℤ) : opposite (opposite d) = d := by
  simp [opposite]

lemma commitDir_none (s : Snake) (h : s.next_direction = none) :
    commitDir s = s.direction := by
  simp [commitDir, h]

lemma commitDir_some (s : Snake) (p : ℤ × ℤ) (h : s.next_direction = some p) :
    commitDir s = p := by
  simp [commitDir, h]

lemma dirOk_some (s : Snake) (p : ℤ × ℤ) (hok : dirOk s)
    (h : s.next_direction = some p) : p ≠ opposite s.direction := by
  simpa [dirOk, h] using hok

lemma handle_key_direction (s : Snake) (k : Key) :
    (handle_key s k).direction = s.direction := by
  cases k <;> simp only [handle_key] <;> split_ifs <;> rfl

lemma handle_key_of_reverse (s : Snake) (k : Key)
    (h : dirOf k = opposite s.direction) : handle_key s k = s := by
  have h2 : s.direction = opposite (dirOf k) := by
    rw [h, opposite_opposite]
  cases k with
  | up =>
      have hd : s.direction = DOWN := h2.trans (by decide)
      simp [handle_key, hd]
  | down =>
      have hd : s.direction = UP := h2.trans (by decide)
      simp [handle_key, hd, UP, DOWN]
  | left =>
      have hd : s.direction = RIGHT := h2.trans (by decide)
      simp [handle_key, hd, RIGHT, LEFT, UP, DOWN]
  | right =>
      have hd : s.direction = LEFT := h2.trans (by decide)
      simp [handle_key, hd, RIGHT, LEFT, UP, DOWN]

lemma handle_key_dirOk (s : Snake) (k : Key) (h : dirOk s) :
    dirOk (handle_key s k) := by
  have key : ∀ d : ℤ × ℤ, s.direction ≠ opposite d →
      dirOk (update_direction s d) := by
    intro d hne
    simp only [dirOk, update_direction]
    intro heq
    exact hne (by rw [heq, opposite_opposite])
  cases k with
  | up =>
      simp only [handle_key]
      split_ifs with hc
      · exact key UP fun heq => hc (heq.trans (by decide))
      · exact h
  | down =>
      simp only [handle_key]
      split_ifs with hc
      · exact key DOWN fun heq => hc (heq.trans (by decide))
      · exact h
  | left =>
      simp only [handle_key]
      split_ifs with hc
      · exact key LEFT fun heq => hc (heq.trans (by decide))
      · exact h
  | right =>
      simp only [handle_key]
      split_ifs with hc
      · exact key RIGHT fun heq => hc (heq.trans (by decide))
      · exact h

lemma handle_keys_direction (s : Snake) (ks : List Key) :
    (handle_keys s ks).direction = s.direction := by
  induction ks generalizing s with
  | nil => rfl
  | cons k ks ih =>
      show (handle_keys (handle_key s k) ks).direction = s.direction
      rw [ih, handle_key_direction]

lemma handle_keys_dirOk (s : Snake) (ks : List Key) (h : dirOk s) :
    dirOk (handle_keys s ks) := by
  induction ks generalizing s with
  | nil => exact h
  | cons k ks ih => exact ih (handle_key s k) (handle_key_dirOk s k h)

lemma direction_ne_opposite (d : ℤ × ℤ) (h : d ∈ DIRS) : d ≠ opposite d := by
  fin_cases h <;> decide

/-- C1: an arrow event whose direction is the reverse of the active
direction is dropped without any state change (the check is made against
`direction`, not the queued `next_direction`); when no direction is queued
the next `move` leaves the direction unchanged; and no further events of
the same tick can queue a reversal, so the direction committed by the next
`move` is never the reverse of the active one. -/
theorem C1_reversal_dropped (s : Snake) (k : Key) (ks : List Key)
    (hrev : dirOf k = opposite s.direction) (hdir : s.direction ∈ DIRS)
    (hok : dirOk s) :
    handle_key s k = s ∧
    (s.next_direction = none → (move (handle_key s k)).1.direction = s.direction) ∧
    dirOk (handle_keys (handle_key s k) ks) ∧
    (move (handle_keys (handle_key s k) ks)).1.direction ≠ opposite s.direction := by
  have h1 := handle_key_of_reverse s k hrev
  refine ⟨h1, ?_, ?_, ?_⟩
  · intro hn
    rw [h1, move_fst_direction, commitDir_none s hn]
  · rw [h1]
    exact handle_keys_dirOk s ks hok
  · rw [h1, move_fst_direction]
    have hd := handle_keys_direction s ks
    have hok2 := handle_keys_dirOk s ks hok
    cases hp : (handle_keys s ks).next_direction with
    | none =>
        rw [commitDir_none _ hp, hd]
        exact direction_ne_opposite s.direction hdir
    | some p =>
        rw [commitDir_some _ p hp]
        have := dirOk_some _ p hok2 hp
        rwa [hd] at this

/-- C1 witness: with direction `RIGHT` a `LEFT` event is dropped, and the
same-tick follow-up events `UP` then `LEFT` cannot smuggle a reversal in. -/
theorem C1_reversal_dropped_witness :
    handle_key initialSnake .left = initialSnake ∧
    (initialSnake.next_direction = none →
      (move (handle_key initialSnake .left)).1.direction = initialSnake.direction) ∧
    dirOk (handle_keys (handle_key initialSnake .left) [.up, .left]) ∧
    (move (handle_keys (handle_key initialSnake .left) [.up, .left])).1.direction ≠
      opposite initialSnake.direction :=
  C1_reversal_dropped initialSnake .left [.up, .left] (by decide) (by decide) trivial

/-- C7: from a cell-aligned, in-bounds head, one `move` in any of the four
directions produces a cell-aligned, in-bounds head; a coordinate that
stepped outside its extent lands exactly at `0` or at the extent minus the
cell size; a head at the rightmost column moving `RIGHT` reappears at
column `0` on the same row. -/
theorem C7_toroidal_wrap (s : Snake) (x y : ℤ) (d : ℤ × ℤ)
    (hpos : s.position = (x, y)) (hdir : s.direction = d)
    (hpend : s.next_direction = none) (hd : d ∈ DIRS)
    (hx0 : 0 ≤ x) (hx1 : x < SCREEN_WIDTH) (hxa : x % GRID_SIZE = 0)
    (hy0 : 0 ≤ y) (hy1 : y < SCREEN_HEIGHT) (hya : y % GRID_SIZE = 0) :
    (move s).1.position = get_next_head (x, y) d ∧
    0 ≤ (get_next_head (x, y) d).1 ∧ (get_next_head (x, y) d).1 < SCREEN_WIDTH ∧
    (get_next_head (x, y) d).1 % GRID_SIZE = 0 ∧
    0 ≤ (get_next_head (x, y) d).2 ∧ (get_next_head (x, y) d).2 < SCREEN_HEIGHT ∧
    (get_next_head (x, y) d).2 % GRID_SIZE = 0 ∧
    (¬(0 ≤ x + d.1 * GRID_SIZE ∧ x + d.1 * GRID_SIZE ≤ SCREEN_WIDTH - GRID_SIZE) →
      (get_next_head (x, y) d).1 = 0 ∨
        (get_next_head (x, y) d).1 = SCREEN_WIDTH - GRID_SIZE) ∧
    (¬(0 ≤ y + d.2 * GRID_SIZE ∧ y + d.2 * GRID_SIZE ≤ SCREEN_HEIGHT - GRID_SIZE) →
      (get_next_head (x, y) d).2 = 0 ∨
        (get_next_head (x, y) d).2 = SCREEN_HEIGHT - GRID_SIZE) ∧
    (x = SCREEN_WIDTH - GRID_SIZE → d = RIGHT → get_next_head (x, y) d = (0, y)) := by
  simp only [DIRS, List.mem_cons, List.mem_singleton, List.not_mem_nil, or_false] at hd
  simp only [SCREEN_WIDTH, SCREEN_HEIGHT, GRID_SIZE] at hx1 hxa hy1 hya
  have corner : x = SCREEN_WIDTH - GRID_SIZE → d = RIGHT →
      get_next_head (x, y) d = (0, y) := by
    intro hx hd2
    subst hd2
    simp only [get_next_head, RIGHT, SCREEN_WIDTH, SCREEN_HEIGHT, GRID_SIZE,
      Prod.mk.injEq] at hx ⊢
    split_ifs <;> omega
  refine ⟨?_, ?_, ?_, ?_, ?_, ?_, ?_, ?_, ?_, corner⟩
  · rw [move_fst_position, commitDir_none s hpend, hpos, hdir]
  all_goals
    rcases hd with h | h | h | h <;> subst h <;>
      (simp only [get_next_head, UP, DOWN, LEFT, RIGHT, SCREEN_WIDTH, SCREEN_HEIGHT,
        GRID_SIZE];
       split_ifs <;> omega)

/-- C7 witness: the rightmost aligned column `x = 620` moving `RIGHT` wraps
to column `0` on the same row. -/
theorem C7_toroidal_wrap_witness :
    (move { initialSnake with position := (620, 240) }).1.position =
      get_next_head (620, 240) RIGHT ∧
    0 ≤ (get_next_head (620, 240) RIGHT).1 ∧
    (get_next_head (620, 240) RIGHT).1 < SCREEN_WIDTH ∧
    (get_next_head (620, 240) RIGHT).1 % GRID_SIZE = 0 ∧
    0 ≤ (get_next_head (620, 240) RIGHT).2 ∧
    (get_next_head (620, 240) RIGHT).2 < SCREEN_HEIGHT ∧
    (get_next_head (620, 240) RIGHT).2 % GRID_SIZE = 0 ∧
    (¬(0 ≤ 620 + RIGHT.1 * GRID_SIZE ∧
        620 + RIGHT.1 * GRID_SIZE ≤ SCREEN_WIDTH - GRID_SIZE) →
      (get_next_head (620, 240) RIGHT).1 = 0 ∨
        (get_next_head (620, 240) RIGHT).1 = SCREEN_WIDTH - GRID_SIZE) ∧
    (¬(0 ≤ 240 + RIGHT.2 * GRID_SIZE ∧
        240 + RIGHT.2 * GRID_SIZE ≤ SCREEN_HEIGHT - GRID_SIZE) →
      (get_next_head (620, 240) RIGHT).2 = 0 ∨
        (get_next_head (620, 240) RIGHT).2 = SCREEN_HEIGHT - GRID_SIZE) ∧
    ((620 : ℤ) = SCREEN_WIDTH - GRID_SIZE → RIGHT = RIGHT →
      get_next_head (620, 240) RIGHT = (0, 240)) :=
  C7_toroidal_wrap { initialSnake with position := (620, 240) } 620 240 RIGHT
    rfl rfl rfl (by decide) (by decide) (by decide) (by decide) (by decide)
    (by decide) (by decide)

/-- The internal invariant of the snake state: cache synchronised with the
trailing segments, no duplicate segment, head outside the body, and only
legal directions active or queued. -/
def SnakeInv (s : Snake) : Prop :=
  s.tail_cache = s.positions.toFinset ∧
  s.positions.Nodup ∧
  s.position ∉ s.positions ∧
  s.direction ∈ DIRS ∧
  (∀ p, s.next_direction = some p → p ∈ DIRS)

lemma shift_sync (s : Snake)
    (hsync : s.tail_cache = s.positions.toFinset)
    (hnodup : s.positions.Nodup)
    (hhead : s.position ∉ s.positions) :
    (shift s).tail_cache = (shift s).positions.toFinset ∧
    (shift s).positions.Nodup := by
  simp only [shift]
  split_ifs with h1 h2
  · have hne : s.positions ≠ [] := List.length_pos.mp h2
    have hlast : s.positions.getLast? = some (s.positions.getLast hne) :=
      List.getLast?_eq_getLast_of_ne_nil hne
    rw [hlast]
    set t := s.positions.getLast hne
    have hsplit : s.positions.dropLast ++ [t] = s.positions :=
      List.dropLast_append_getLast hne
    have happ : (s.positions.dropLast ++ [t]).Nodup := by
      rw [hsplit]; exact hnodup
    rw [List.nodup_append] at happ
    obtain ⟨hA, -, hdisj⟩ := happ
    have htA : t ∉ s.positions.dropLast := fun hmem =>
      hdisj hmem (List.mem_singleton_self t)
    have hposA : s.position ∉ s.positions.dropLast := fun hmem =>
      hhead ((List.dropLast_sublist s.positions).subset hmem)
    have hins : s.positions.toFinset = insert t s.positions.dropLast.toFinset := by
      conv_lhs => rw [← hsplit]
      rw [List.toFinset_append]
      ext a
      simp [or_comm]
    have hcache : s.tail_cache.erase t = s.positions.dropLast.toFinset := by
      rw [hsync, hins]
      exact Finset.erase_insert (by simpa using htA)
    constructor
    · show insert s.position (s.tail_cache.erase t) =
        (s.position :: s.positions.dropLast).toFinset
      rw [hcache, List.toFinset_cons]
    · show (s.position :: s.positions.dropLast).Nodup
      exact List.nodup_cons.mpr ⟨hposA, hA⟩
  · exact ⟨hsync, hnodup⟩
  · constructor
    · show insert s.position s.tail_cache = (s.position :: s.positions).toFinset
      rw [hsync, List.toFinset_cons]
    · show (s.position :: s.positions).Nodup
      exact List.nodup_cons.mpr ⟨hhead, hnodup⟩

lemma move_inv_core (s : Snake)
    (hsync : s.tail_cache = s.positions.toFinset)
    (hnodup : s.positions.Nodup)
    (hhead : s.position ∉ s.positions) :
    (move s).1.tail_cache = (move s).1.positions.toFinset ∧
    (move s).1.positions.Nodup ∧
    ((move s).2 = false → (move s).1.position ∉ (move s).1.positions) := by
  obtain ⟨h1, h2⟩ := shift_sync s hsync hnodup hhead
  refine ⟨h1, h2, ?_⟩
  intro hc hmem
  have hfalse :
      is_point_in_snake (shift s) (get_next_head s.position (commitDir s)) = false := by
    rw [← move_snd s]; exact hc
  rw [is_point_in_snake, decide_eq_false_iff_not] at hfalse
  apply hfalse
  rw [h1, List.mem_toFinset]
  have hpos : (move s).1.position = get_next_head s.position (commitDir s) :=
    move_fst_position s
  rw [hpos] at hmem
  exact hmem

lemma update_direction_SnakeInv (s : Snake) (d : ℤ × ℤ) (hd : d ∈ DIRS)
    (h : SnakeInv s) : SnakeInv (update_direction s d) := by
  obtain ⟨a, b, c, e, -⟩ := h
  exact ⟨a, b, c, e, fun p hp => by cases hp; exact hd⟩

lemma handle_key_SnakeInv (s : Snake) (k : Key) (h : SnakeInv s) :
    SnakeInv (handle_key s k) := by
  cases k <;> simp only [handle_key] <;> split_ifs <;>
    first
      | exact update_direction_SnakeInv s _ (by decide) h
      | exact h

lemma handle_keys_SnakeInv (s : Snake) (ks : List Key) (h : SnakeInv s) :
    SnakeInv (handle_keys s ks) := by
  induction ks generalizing s with
  | nil => exact h
  | cons k ks ih => exact ih (handle_key s k) (handle_key_SnakeInv s k h)

lemma commitDir_mem (s : Snake) (h : SnakeInv s) : commitDir s ∈ DIRS := by
  cases hp : s.next_direction with
  | none => rw [commitDir_none s hp]; exact h.2.2.2.1
  | some p => rw [commitDir_some s p hp]; exact h.2.2.2.2 p hp

lemma move_SnakeInv (s : Snake) (h : SnakeInv s) (hc : (move s).2 = false) :
    SnakeInv (move s).1 := by
  obtain ⟨h1, h2, h3⟩ := move_inv_core s h.1 h.2.1 h.2.2.1
  refine ⟨h1, h2, h3 hc, ?_, ?_⟩
  · rw [move_fst_direction]
    exact commitDir_mem s h
  · intro p hp
    rw [move_fst_next_direction] at hp
    cases hp

lemma reset_SnakeInv (s : Snake) : SnakeInv (reset s) :=
  ⟨rfl, List.nodup_nil, List.not_mem_nil _,
    (by decide : START_SNAKE_DIRECTION ∈ DIRS), fun p hp => by cases hp⟩

lemma increase_SnakeInv (s : Snake) (h : SnakeInv s) : SnakeInv (increase s) :=
  ⟨h.1, h.2.1, h.2.2.1, h.2.2.2.1, fun p hp => h.2.2.2.2 p hp⟩

lemma tick_SnakeInv {g g' : Game} (ks : List Key) (samples : List (ℤ × ℤ))
    (h : SnakeInv g.snake) (ht : tick g ks samples = some g') :
    SnakeInv g'.snake := by
  have hs : SnakeInv (handle_keys g.snake ks) := handle_keys_SnakeInv g.snake ks h
  simp only [tick] at ht
  split at ht
  · split at ht
    · cases ht
    · cases ht
      exact reset_SnakeInv _
  · rename_i hcol
    have hcol2 : (move (handle_keys g.snake ks)).2 = false :=
      Bool.not_eq_true _ ▸ hcol
    split at ht
    · split at ht
      · cases ht
      · cases ht
        exact increase_SnakeInv _ (move_SnakeInv _ hs hcol2)
    · cases ht
      exact move_SnakeInv _ hs hcol2

lemma initial_SnakeInv : SnakeInv initialGame.snake :=
  ⟨rfl, List.nodup_nil, List.not_mem_nil _, by decide, fun p hp => by cases hp⟩

lemma reach_SnakeInv {g : Game} (h : Reach g) : SnakeInv g.snake := by
  induction h with
  | init => exact initial_SnakeInv
  | step ks samples hr ht ih => exact tick_SnakeInv ks samples ih ht

lemma get_next_head_ne (p d : ℤ × ℤ) (hd : d ∈ DIRS) : get_next_head p d ≠ p := by
  obtain ⟨x, y⟩ := p
  fin_cases hd <;>
    (intro he;
     simp only [get_next_head, UP, DOWN, LEFT, RIGHT, SCREEN_WIDTH, SCREEN_HEIGHT,
       GRID_SIZE, Prod.mk.injEq] at he;
     split_ifs at he <;> omega)

/-- C3: in every reachable state the occupancy index is the set of trailing
segments, and it is again after any one advance (whatever key events the
tick processed first). -/
theorem C3_occupancy_sync (g : Game) (ks : List Key) (h : Reach g) :
    g.snake.tail_cache = g.snake.positions.toFinset ∧
    (move (handle_keys g.snake ks)).1.tail_cache =
      (move (handle_keys g.snake ks)).1.positions.toFinset := by
  have hi := reach_SnakeInv h
  have hs := handle_keys_SnakeInv g.snake ks hi
  exact ⟨hi.1, (move_inv_core _ hs.1 hs.2.1 hs.2.2.1).1⟩

/-- C3 witness at the initial state. -/
theorem C3_occupancy_sync_witness :
    initialGame.snake.tail_cache = initialGame.snake.positions.toFinset ∧
    (move (handle_keys initialGame.snake [])).1.tail_cache =
      (move (handle_keys initialGame.snake [])).1.positions.toFinset :=
  C3_occupancy_sync initialGame [] Reach.init

/-- C4: in every state reachable by complete controller ticks the head is
neither a trailing segment nor a member of the occupancy index. -/
theorem C4_head_not_in_body (g : Game) (h : Reach g) :
    g.snake.position ∉ g.snake.positions ∧
    g.snake.position ∉ g.snake.tail_cache := by
  have hi := reach_SnakeInv h
  refine ⟨hi.2.2.1, ?_⟩
  rw [hi.1, List.mem_toFinset]
  exact hi.2.2.1

/-- C4 witness at the initial state. -/
theorem C4_head_not_in_body_witness :
    initialGame.snake.position ∉ initialGame.snake.positions ∧
    initialGame.snake.position ∉ initialGame.snake.tail_cache :=
  C4_head_not_in_body initialGame Reach.init

/-- C5: starting from any reachable state (after any key events of the
tick), `move` reports a collision exactly when the newly computed head lies
in the occupancy index as updated by the tail-drop/head-insert step of that
same `move` — the trailing segments only — and the new head always differs
from the head's own pre-advance position, so the test can never fire on it.
-/
theorem C5_collision_iff (g : Game) (ks : List Key) (h : Reach g) :
    ((move (handle_keys g.snake ks)).2 = true ↔
      get_next_head (handle_keys g.snake ks).position
          (commitDir (handle_keys g.snake ks)) ∈
        (shift (handle_keys g.snake ks)).tail_cache) ∧
    (move (handle_keys g.snake ks)).1.position ≠
      (handle_keys g.snake ks).position := by
  have hs := handle_keys_SnakeInv g.snake ks (reach_SnakeInv h)
  constructor
  · rw [move_snd, is_point_in_snake, decide_eq_true_iff]
  · rw [move_fst_position]
    exact get_next_head_ne _ _ (commitDir_mem _ hs)

/-- C5 witness at the initial state. -/
theorem C5_collision_iff_witness :
    ((move (handle_keys initialGame.snake [])).2 = true ↔
      get_next_head (handle_keys initialGame.snake []).position
          (commitDir (handle_keys initialGame.snake [])) ∈
        (shift (handle_keys initialGame.snake [])).tail_cache) ∧
    (move (handle_keys initialGame.snake [])).1.position ≠
      (handle_keys initialGame.snake []).position :=
  C5_collision_iff initialGame [] Reach.init

lemma randomize_apple_not_in_snake (s : Snake) (samples : List (ℤ × ℤ)) :
    ∀ pos p, randomize_apple s pos samples = some p →
      is_point_in_snake s p = false := by
  induction samples with
  | nil => intro pos p h; cases h
  | cons sm rest ih =>
      intro pos p h
      simp only [randomize_apple] at h
      split_ifs at h with h1 h2
      · exact ih pos p h
      · exact ih (align sm) p h
      · cases h
        simpa using h2

lemma randomize_apple_all_pass (s : Snake) (samples : List (ℤ × ℤ)) :
    ∀ pos p, (∀ sm ∈ samples, is_point_in_snake s (align sm) = false) →
      randomize_apple s pos samples = some p → p ≠ pos := by
  induction samples with
  | nil => intro pos p _ h; cases h
  | cons sm rest ih =>
      intro pos p hall h
      simp only [randomize_apple] at h
      split_ifs at h with h1 h2
      · exact ih pos p (fun q hq => hall q (List.mem_cons_of_mem _ hq)) h
      · have hsm := hall sm (List.mem_cons_self sm rest)
        simp [hsm] at h2
      · cases h
        exact h1

/-- C8 (amended): a completed relocation never returns a position for which
`is_point_in_snake` holds; and whenever the exclusion test rejects no
intermediate sample the result also differs from the target's position at
the start of the relocation.  (When an intermediate sample is rejected the
inner loop compares against the updated position, so the original position
can be returned — see the counterexample.) -/
theorem C8_relocation_exclusion (s : Snake) (pos p : ℤ × ℤ)
    (samples : List (ℤ × ℤ))
    (h : randomize_apple s pos samples = some p) :
    is_point_in_snake s p = false ∧
    ((∀ sm ∈ samples, is_point_in_snake s (align sm) = false) → p ≠ pos) :=
  ⟨randomize_apple_not_in_snake s samples pos p h,
   fun hall => randomize_apple_all_pass s samples pos p hall h⟩

/-- C8 witness at a concrete relocation with no rejected sample. -/
theorem C8_relocation_exclusion_witness :
    is_point_in_snake initialSnake ((20 : ℤ), (0 : ℤ)) = false ∧
    ((∀ sm ∈ [((20 : ℤ), (0 : ℤ))],
        is_point_in_snake initialSnake (align sm) = false) →
      ((20 : ℤ), (0 : ℤ)) ≠ ((0 : ℤ), (0 : ℤ))) :=
  C8_relocation_exclusion initialSnake (0, 0) (20, 0) [(20, 0)] (by decide)

/-- Snake used in the C8 counterexample: a single trailing segment at
`(20, 0)`. -/
def snakeC8 : Snake :=
  { position := (40, 0),
    positions := [(20, 0)],
    direction := START_SNAKE_DIRECTION,
    next_direction := none,
    increaseFlag := false,
    tail_cache := {(20, 0)},
    last := none }

/-- C8 counterexample: apple at `(0, 0)`, body occupying `(20, 0)`, sample
stream `[(20, 0), (0, 0)]`.  The first sample differs from the apple's
position but lies in the body, so the outer loop retries with the apple
moved to `(20, 0)`; the second sample `(0, 0)` now differs from the updated
position and is outside the body, so the relocation returns `(0, 0)` — the
target's position immediately before the relocation began, which the claim
says can never be returned. -/
theorem C8_returns_original_position :
    randomize_apple snakeC8 (0, 0) [(20, 0), (0, 0)] = some (0, 0) := by
  decide

/-- A raw sample within the inclusive bounds `randint(0, extent - size)`
can produce. -/
def validSample (sm : ℤ × ℤ) : Prop :=
  0 ≤ sm.1 ∧ sm.1 ≤ SCREEN_WIDTH - GRID_SIZE ∧
  0 ≤ sm.2 ∧ sm.2 ≤ SCREEN_HEIGHT - GRID_SIZE

/-- The cell-aligned positions of the 32 × 24 grid. -/
def gridCells : Finset (ℤ × ℤ) :=
  ((Finset.range 32).image (fun i : ℕ => (i : ℤ) * 20)) ×ˢ
    ((Finset.range 24).image (fun j : ℕ => (j : ℤ) * 20))

lemma gridCells_card : gridCells.card = 768 := by
  have hinj : Function.Injective (fun i : ℕ => ((i : ℤ) * 20)) := by
    intro a b hab
    simp only at hab
    omega
  rw [gridCells, Finset.card_product, Finset.card_image_of_injective _ hinj,
    Finset.card_image_of_injective _ hinj, Finset.card_range, Finset.card_range]

lemma align_mem_gridCells (sm : ℤ × ℤ) (hv : validSample sm) :
    align sm ∈ gridCells := by
  obtain ⟨x, y⟩ := sm
  simp only [validSample, SCREEN_WIDTH, SCREEN_HEIGHT, GRID_SIZE] at hv
  obtain ⟨h1, h2, h3, h4⟩ := hv
  simp only [gridCells, align, GRID_SIZE, Finset.mem_product, Finset.mem_image,
    Finset.mem_range]
  exact ⟨⟨(x / 20).toNat, by omega, by omega⟩, ⟨(y / 20).toNat, by omega, by omega⟩⟩

lemma align_of_mem_gridCells (p : ℤ × ℤ) (hp : p ∈ gridCells) : align p = p := by
  obtain ⟨x, y⟩ := p
  simp only [gridCells, Finset.mem_product, Finset.mem_image, Finset.mem_range] at hp
  obtain ⟨⟨i, hi, hx⟩, j, hj, hy⟩ := hp
  simp only [align, GRID_SIZE, Prod.mk.injEq]
  constructor <;> omega

lemma valid_of_mem_gridCells (p : ℤ × ℤ) (hp : p ∈ gridCells) : validSample p := by
  obtain ⟨x, y⟩ := p
  simp only [gridCells, Finset.mem_product, Finset.mem_image, Finset.mem_range] at hp
  obtain ⟨⟨i, hi, hx⟩, j, hj, hy⟩ := hp
  simp only [validSample, SCREEN_WIDTH, SCREEN_HEIGHT, GRID_SIZE]
  refine ⟨by omega, by omega, by omega, by omega⟩

lemma exists_free_cell (s : Snake) (pos : ℤ × ℤ)
    (h : (insert s.position s.tail_cache).card + 1 < gridCells.card) :
    ∃ p ∈ gridCells, p ∉ s.tail_cache ∧ p ≠ pos := by
  by_contra hno
  push_neg at hno
  have hsub : gridCells ⊆ insert pos (insert s.position s.tail_cache) := by
    intro p hp
    by_cases hc : p ∈ s.tail_cache
    · exact Finset.mem_insert_of_mem (Finset.mem_insert_of_mem hc)
    · rw [hno p hp hc]
      exact Finset.mem_insert_self pos _
  have h1 := Finset.card_le_card hsub
  have h2 := Finset.card_insert_le pos (insert s.position s.tail_cache)
  omega

/-- Snake whose occupancy index covers every grid cell: the starvation
state of C9 (only the cache matters to the exclusion test). -/
def fullCacheSnake : Snake :=
  { initialSnake with tail_cache := gridCells }

lemma randomize_apple_full (samples : List (ℤ × ℤ)) :
    ∀ q, (∀ sm ∈ samples, validSample sm) →
      randomize_apple fullCacheSnake q samples = none := by
  induction samples with
  | nil => intro q _; rfl
  | cons sm rest ih =>
      intro q hv
      simp only [randomize_apple]
      split_ifs with h1 h2
      · exact ih q (fun a ha => hv a (List.mem_cons_of_mem _ ha))
      · exact ih (align sm) (fun a ha => hv a (List.mem_cons_of_mem _ ha))
      · exfalso
        apply h2
        rw [is_point_in_snake, decide_eq_true_iff]
        exact align_mem_gridCells sm (hv sm (List.mem_cons_self sm rest))

/-- C9: when the grid has strictly more cells than the body occupies plus
the target's own cell, some finite stream of in-range samples completes the
relocation; without that precondition the loop can starve — with the body
covering every grid cell no stream of in-range samples ever completes. -/
theorem C9_relocation_termination (s : Snake) (pos : ℤ × ℤ)
    (h : (insert s.position s.tail_cache).card + 1 < gridCells.card) :
    (∃ samples : List (ℤ × ℤ), (∀ sm ∈ samples, validSample sm) ∧
      (randomize_apple s pos samples).isSome = true) ∧
    (∀ (q : ℤ × ℤ) (samples : List (ℤ × ℤ)), (∀ sm ∈ samples, validSample sm) →
      randomize_apple fullCacheSnake q samples = none) := by
  refine ⟨?_, fun q samples hv => randomize_apple_full samples q hv⟩
  obtain ⟨p, hpg, hpc, hppos⟩ := exists_free_cell s pos h
  refine ⟨[p], ?_, ?_⟩
  · intro sm hsm
    rw [List.mem_singleton] at hsm
    rw [hsm]
    exact valid_of_mem_gridCells p hpg
  · have ha : align p = p := align_of_mem_gridCells p hpg
    have hfalse : is_point_in_snake s p = false := by
      rw [is_point_in_snake, decide_eq_false_iff_not]
      exact hpc
    simp only [randomize_apple, ha]
    rw [if_neg hppos, hfalse]
    simp

/-- C9 witness at the initial state, whose body occupies a single cell. -/
theorem C9_relocation_termination_witness :
    (∃ samples : List (ℤ × ℤ), (∀ sm ∈ samples, validSample sm) ∧
      (randomize_apple initialSnake START_APPLE_POSITION samples).isSome = true) ∧
    (∀ (q : ℤ × ℤ) (samples : List (ℤ × ℤ)), (∀ sm ∈ samples, validSample sm) →
      randomize_apple fullCacheSnake q samples = none) :=
  C9_relocation_termination initialSnake START_APPLE_POSITION
    (by rw [gridCells_card]; decide)

end TheSnake
